import Mathlib

/-!
Shallow embedding of the portfoliodb core: the valuation engine
(`backend/core/table_calculations.py`), the currency converter
(`backend/core/services/currency_converter.py`) and the quote-fetching
orchestrator (`backend/core/services/quote_fetcher.py`), together with
theorems settling the specified properties of these components.

Modelling conventions:
- Dates are encoded as naturals (only their ordering matters).
- Python `Decimal` values are embedded as rationals `ℚ` (exact arithmetic).
- Database rows are in-memory lists; the Django ORM query expressions of the
  source are translated into list filters/maps over those rows.
- External HTTP services (rate source, quote providers) are oracles passed in
  as function parameters.
-/

namespace PortfolioDb

/-- Movement row (`core/models.py`, class `Movement`): a dated ledger event for
one investment.  `action` is the `ActionID` foreign key; the seeded action
types (`core/migrations/0002_load_actiontypes.py`) are 1 = Buy, 2 = Sell,
3 = Payout. -/
structure Movement where
  investment : Nat
  date : Nat
  action : Nat
  quantity : ℚ
  amount : ℚ
deriving DecidableEq, Repr

/-- InvestmentPrice row (`core/models.py`, class `InvestmentPrice`): a stored
price fact for one investment and date. -/
structure InvestmentPrice where
  investment : Nat
  date : Nat
  price : ℚ
deriving DecidableEq, Repr

/-- Development record emitted by the valuation engine
(`core/table_calculations.py`, dataclass `Development` / the dict built at the
end of `developments`). -/
structure Development where
  investment : Nat
  date : Nat
  price : ℚ
  quantity : ℚ
  value : ℚ
deriving DecidableEq, Repr

/-- Movements of investment `i` on date `d`: one group of the
`Movement.objects.values("investment", "date")` GROUP BY underlying the
`transaction_days` query of `developments` (`table_calculations.py`). -/
def movementsOn (ms : List Movement) (i d : Nat) : List Movement :=
  ms.filter fun m => m.investment = i ∧ m.date = d

/-- Modelled from the spec: the non-null terms of
`Avg(Abs(F("amount") / F("quantity")))` in the `transaction_days` query of
`developments`.  The SQL semantics of the division is not fixed by the sources
(the project settings module selecting the database backend is absent); per the
spec's error-handling section, a term whose quantity is zero is undefined
(NULL) and is skipped by the SQL `Avg`, so only movements with a nonzero
quantity contribute a term `abs(amount / quantity)`. -/
def impliedPriceTerms (ms : List Movement) (i d : Nat) : List ℚ :=
  ((movementsOn ms i d).filter fun m => m.quantity ≠ 0).map fun m => |m.amount / m.quantity|

/-- SQL `Avg` over an aggregated column: NULL (`none`) when no non-null term
exists, otherwise the arithmetic mean of the terms. -/
def avgOrNull (ts : List ℚ) : Option ℚ :=
  match ts with
  | [] => none
  | t :: rest => some ((t :: rest).sum / (t :: rest).length)

/-- The `transaction_price` annotation of the `transaction_days` query in
`developments` (`table_calculations.py` lines 33-39): the average of
`abs(amount / quantity)` over the movements of investment `i` on date `d`. -/
def transactionPrice (ms : List Movement) (i d : Nat) : Option ℚ :=
  avgOrNull (impliedPriceTerms ms i d)

/-- The `quote_prices` dictionary lookup of `developments`
(`table_calculations.py` lines 66-69 and 107-108): the stored price for
`(i, d)`, if any.  The dict comprehension lets a later row overwrite an
earlier one, hence `getLast?`. -/
def quotePrice (ps : List InvestmentPrice) (i d : Nat) : Option ℚ :=
  ((ps.filter fun q => q.investment = i ∧ q.date = d).map InvestmentPrice.price).getLast?

/-- The `quantity_bought` aggregate of `developments` (`table_calculations.py`
lines 87-93): total quantity of Buy movements (action 1) of investment `i`
with date at most `d`. -/
def buySum (ms : List Movement) (i d : Nat) : ℚ :=
  ((ms.filter fun m => m.investment = i ∧ m.action = 1 ∧ m.date ≤ d).map Movement.quantity).sum

/-- The `quantity_sold` aggregate of `developments` (`table_calculations.py`
lines 94-100): total quantity of Sell movements (action 2) of investment `i`
with date at most `d`. -/
def sellSum (ms : List Movement) (i d : Nat) : ℚ :=
  ((ms.filter fun m => m.investment = i ∧ m.action = 2 ∧ m.date ≤ d).map Movement.quantity).sum

/-- The `quantity` local of `developments` (`table_calculations.py` line 101):
cumulative quantity held on date `d`. -/
def heldQuantity (ms : List Movement) (i d : Nat) : ℚ :=
  buySum ms i d - sellSum ms i d

/-- Lexicographic (non-strict) order on `(investment, date)` pairs: the sort
key `lambda x: (x[0], x[1])` of `developments` (`table_calculations.py`
line 79). -/
def pairLe : Nat × Nat → Nat × Nat → Prop := fun a b =>
  a.1 < b.1 ∨ (a.1 = b.1 ∧ a.2 ≤ b.2)

/-- Strict lexicographic order on `(investment, date)` pairs. -/
def pairLt : Nat × Nat → Nat × Nat → Prop := fun a b =>
  a.1 < b.1 ∨ (a.1 = b.1 ∧ a.2 < b.2)

instance : DecidableRel pairLe := fun a b => by unfold pairLe; infer_instance

instance : DecidableRel pairLt := fun a b => by unfold pairLt; infer_instance

instance : IsTotal (Nat × Nat) pairLe where
  total a b := by unfold pairLe; omega

instance : IsTrans (Nat × Nat) pairLe where
  trans a b c := by unfold pairLe; omega

/-- The `all_dates` set of `developments` (`table_calculations.py` lines
72-79): the distinct `(investment, date)` pairs bearing a movement or a stored
quote, sorted ascending by `(investment, date)`. -/
def candidatePairs (ms : List Movement) (ps : List InvestmentPrice) : List (Nat × Nat) :=
  List.insertionSort pairLe
    (((ms.map fun m => (m.investment, m.date)) ++ (ps.map fun q => (q.investment, q.date))).dedup)

/-- The price resolution of `developments` (`table_calculations.py` lines
103-121): stored quote first, then same-day transaction price, then the last
known price for the investment. -/
def resolvePrice (ms : List Movement) (ps : List InvestmentPrice) (i d : Nat)
    (last : Option ℚ) : Option ℚ :=
  match quotePrice ps i d with
  | some p => some p
  | none =>
    match transactionPrice ms i d with
    | some p => some p
    | none => last

/-- The main loop of `developments` (`table_calculations.py` lines 82-136):
walk the sorted candidate pairs, resolve a price, track the last known price
per investment in `lastPrice` (the `last_price_by_investment` dict), and emit
a record only when a price was resolved. -/
def buildDevs (ms : List Movement) (ps : List InvestmentPrice) :
    List (Nat × Nat) → (Nat → Option ℚ) → List Development
  | [], _ => []
  | (i, d) :: rest, lastPrice =>
    match resolvePrice ms ps i d (lastPrice i) with
    | some p =>
      ⟨i, d, p, heldQuantity ms i d, heldQuantity ms i d * p⟩ ::
        buildDevs ms ps rest (fun j => if j = i then some p else lastPrice j)
    | none => buildDevs ms ps rest lastPrice

/-- The function `developments` of `table_calculations.py`: the derived
valuation series over the given movement and price rows. -/
def developments (ms : List Movement) (ps : List InvestmentPrice) : List Development :=
  buildDevs ms ps (candidatePairs ms ps) (fun _ => none)

/-- First two tiers of the price resolution, which do not depend on the
carried state: the stored quote if present, else the same-day transaction
price. -/
def eagerPrice (ms : List Movement) (ps : List InvestmentPrice) (i d : Nat) : Option ℚ :=
  match quotePrice ps i d with
  | some p => some p
  | none => transactionPrice ms i d

/-- Tier-3b trade-implied price as the spec sentence words it, for comparison
with the source's `transactionPrice`: the simple mean of `abs(amount /
quantity)` over that day's movements with action Buy or Sell only. -/
def specBuySellMeanPrice (ms : List Movement) (i d : Nat) : Option ℚ :=
  avgOrNull (((movementsOn ms i d).filter fun m => m.action = 1 ∨ m.action = 2).map
    fun m => |m.amount / m.quantity|)

/-- Request issued by `CurrencyConverter.convert`
(`core/services/currency_converter.py`): amount, source and target currency
codes, and an optional historical date (`none` = latest). -/
structure ConvQuery where
  amount : ℚ
  fromCur : String
  toCur : String
  date : Option Nat
deriving DecidableEq, Repr

/-- The method `CurrencyConverter.convert` (`currency_converter.py` lines
20-67).  The external rate source (`requests.get` against frankfurter.app plus
the response parsing) is abstracted by the oracle `fetch`, which returns the
converted amount extracted from the `rates` field, or `none` on a transport
error, a parse error, or a missing target currency.  Besides the converted
amount, the list of requests actually issued is returned, so that the absence
of an external call is expressible.  The identity shortcut (lines 36-37)
returns the amount unchanged before any request is built. -/
def convert (fetch : ConvQuery → Option ℚ) (amount : ℚ) (fromCur toCur : String)
    (conversionDate : Option Nat) : Option ℚ × List ConvQuery :=
  if fromCur = toCur then (some amount, [])
  else
    let q : ConvQuery := ⟨amount, fromCur, toCur, conversionDate⟩
    match fetch q with
    | some r => (some r, [q])
    | none => (none, [q])

/-- Quote datum produced by a provider (`core/services/quote_provider.py`,
class `QuoteData`). -/
structure QuoteData where
  ticker : String
  date : Nat
  price : ℚ
  currency : String
  source : String
deriving DecidableEq, Repr

/-- A provider object as used by the orchestrator's bulk path.  Its
`get_quotes` attribute is `none` when the concrete class does not define the
method (calling it then raises `AttributeError`); when present it either
returns a list of quotes or raises (`Except.error`).
`OpenBBYahooProvider` (`core/services/openbb_provider.py`) defines `get_quote`
and `get_provider_name` but no `get_quotes`; `JustETFProvider`
(`core/services/justetf_provider.py`) defines `get_quotes` and never raises
from it (it catches its own errors and returns a list). -/
structure ProviderImpl where
  get_quotes : Option (String → Except String (List QuoteData))

/-- Investment row as the orchestrator reads it (`core/models.py` plus the
`ticker_symbol` / `quote_provider` columns used by `quote_fetcher.py`).  The
empty string models an unset (NULL or empty, both falsy in Python) value. -/
structure Investment where
  id : Nat
  isin : String
  ticker_symbol : String
  quote_provider : String
deriving DecidableEq, Repr

/-- Result of a per-investment fetch (`quote_fetcher.py`, class
`QuoteFetchResult`). -/
structure QuoteFetchResult where
  investment_id : Nat
  success : Bool
  error : Option String
deriving DecidableEq, Repr

/-- Stored price row as written by the orchestrator (`InvestmentPrice` with
its `source` column). -/
structure PriceRow where
  investment : Nat
  date : Nat
  price : ℚ
  source : String
deriving DecidableEq, Repr

/-- Environment of `QuoteFetcherService`: the provider registry built in
`__init__` (`quote_fetcher.py` lines 32-37), the rate-source oracle behind the
`CurrencyConverter`, and the base currency returned by `_get_base_currency`
(the `Settings` row or the "EUR" fallback). -/
structure FetchEnv where
  providers : String → Option ProviderImpl
  rateOracle : ConvQuery → Option ℚ
  base_currency : String

/-- The `InvestmentPrice.objects.update_or_create` call of
`fetch_quotes_for_investment` (`quote_fetcher.py` lines 127-131): overwrite
the row keyed by `(investment, date)` if it exists, else append a new row. -/
def upsertPrice (store : List PriceRow) (i d : Nat) (p : ℚ) (src : String) : List PriceRow :=
  if store.any fun r => r.investment = i ∧ r.date = d then
    store.map fun r => if r.investment = i ∧ r.date = d then ⟨i, d, p, src⟩ else r
  else store ++ [⟨i, d, p, src⟩]

/-- Body of the per-quote loop of `fetch_quotes_for_investment`
(`quote_fetcher.py` lines 106-132): convert to the base currency when needed,
skip the quote (`continue`) when conversion fails, else upsert. -/
def storeQuote (env : FetchEnv) (invId : Nat) (store : List PriceRow)
    (q : QuoteData) : List PriceRow :=
  if q.currency = env.base_currency then upsertPrice store invId q.date q.price q.source
  else
    match (convert env.rateOracle q.price q.currency env.base_currency (some q.date)).1 with
    | none => store
    | some p => upsertPrice store invId q.date p q.source

/-- The method `QuoteFetcherService.fetch_quotes_for_investment`
(`quote_fetcher.py` lines 66-143): validate configuration, look up the
provider, call its `get_quotes`, convert and store each returned quote, and
catch every exception from the fetch/store block into a failure result. -/
def fetch_quotes_for_investment (env : FetchEnv) (store : List PriceRow)
    (inv : Investment) : QuoteFetchResult × List PriceRow :=
  if inv.ticker_symbol = "" then
    (⟨inv.id, false, some "No ticker symbol configured"⟩, store)
  else if inv.quote_provider = "" then
    (⟨inv.id, false, some "No quote provider configured"⟩, store)
  else
    match env.providers inv.quote_provider with
    | none => (⟨inv.id, false, some ("Unknown provider: " ++ inv.quote_provider)⟩, store)
    | some provider =>
      match provider.get_quotes with
      | none =>
        (⟨inv.id, false, some "AttributeError: object has no attribute get_quotes"⟩, store)
      | some gq =>
        match gq (if inv.ticker_symbol ≠ "" then inv.ticker_symbol else inv.isin) with
        | Except.error e => (⟨inv.id, false, some e⟩, store)
        | Except.ok quotes =>
          match quotes with
          | [] => (⟨inv.id, false, some "No quote data returned from provider"⟩, store)
          | _ :: _ =>
            (⟨inv.id, true, none⟩, quotes.foldl (storeQuote env inv.id) store)

/-- The investment selection of `QuoteFetcherService.fetch_quotes`
(`quote_fetcher.py` lines 155-163): the requested ids when a non-empty list is
given (an empty list is falsy in Python and falls through), else all
investments with a configured quote provider. -/
def selectInvestments (invs : List Investment) (ids : Option (List Nat)) : List Investment :=
  match ids with
  | some l =>
    match l with
    | [] => invs.filter fun i => i.quote_provider ≠ ""
    | _ :: _ => invs.filter fun i => i.id ∈ l
  | none => invs.filter fun i => i.quote_provider ≠ ""

/-- The sequential per-investment loop of `fetch_quotes` (`quote_fetcher.py`
lines 165-168), threading the price store through the iterations. -/
def runFetchLoop (env : FetchEnv) (store : List PriceRow) :
    List Investment → List QuoteFetchResult × List PriceRow
  | [] => ([], store)
  | inv :: rest =>
    let r := fetch_quotes_for_investment env store inv
    let tail := runFetchLoop env r.2 rest
    (r.1 :: tail.1, tail.2)

/-- The method `QuoteFetcherService.fetch_quotes` (`quote_fetcher.py` lines
145-174): select the investments to process and run the per-investment loop,
returning one result per processed investment. -/
def fetch_quotes (env : FetchEnv) (store : List PriceRow) (invs : List Investment)
    (ids : Option (List Nat)) : List QuoteFetchResult × List PriceRow :=
  runFetchLoop env store (selectInvestments invs ids)

/-- The provider registry built in `QuoteFetcherService.__init__`
(`quote_fetcher.py` lines 34-37): `"openbb_yahoo"` maps to an
`OpenBBYahooProvider` (which defines no `get_quotes` method), `"justetf"`
maps to a `JustETFProvider` (whose `get_quotes` catches its own errors and
returns a list computed from the HTTP response, abstracted by the oracle
`justetfData`). -/
def defaultProviders (justetfData : String → List QuoteData) : String → Option ProviderImpl :=
  fun s =>
    if s = "openbb_yahoo" then some ⟨none⟩
    else if s = "justetf" then some ⟨some fun t => Except.ok (justetfData t)⟩
    else none

/-- Concrete single-provider environment for exercising the orchestrator: the
sole registered provider `"prov1"` raises from its bulk fetch. -/
def raisingEnv : FetchEnv :=
  ⟨fun s => if s = "prov1" then some ⟨some fun _ => Except.error "boom"⟩ else none,
    fun _ => none, "EUR"⟩

/-- Concrete investment configured with ticker `"TCK"` and provider
`"prov1"`. -/
def invProv1 : Investment := ⟨7, "ISIN1", "TCK", "prov1"⟩

/-- Concrete investment configured with the OpenBB/Yahoo provider. -/
def invOpenbb : Investment := ⟨3, "ISIN2", "AAPL", "openbb_yahoo"⟩

/-! Lemmas about the valuation engine. -/

lemma resolvePrice_eq_eager (ms : List Movement) (ps : List InvestmentPrice) (i d : Nat)
    (last : Option ℚ) :
    resolvePrice ms ps i d last =
      match eagerPrice ms ps i d with
      | some p => some p
      | none => last := by
  unfold resolvePrice eagerPrice
  cases quotePrice ps i d <;> cases transactionPrice ms i d <;> rfl

lemma buildDevs_nil (ms : List Movement) (ps : List InvestmentPrice) (f : Nat → Option ℚ) :
    buildDevs ms ps [] f = [] := rfl

lemma buildDevs_cons_some (ms : List Movement) (ps : List InvestmentPrice) (i d : Nat)
    (rest : List (Nat × Nat)) (f : Nat → Option ℚ) (p : ℚ)
    (h : resolvePrice ms ps i d (f i) = some p) :
    buildDevs ms ps ((i, d) :: rest) f =
      ⟨i, d, p, heldQuantity ms i d, heldQuantity ms i d * p⟩ ::
        buildDevs ms ps rest (fun j => if j = i then some p else f j) := by
  rw [buildDevs, h]

lemma buildDevs_cons_none (ms : List Movement) (ps : List InvestmentPrice) (i d : Nat)
    (rest : List (Nat × Nat)) (f : Nat → Option ℚ)
    (h : resolvePrice ms ps i d (f i) = none) :
    buildDevs ms ps ((i, d) :: rest) f = buildDevs ms ps rest f := by
  rw [buildDevs, h]

lemma buildDevs_pairs_sublist (ms : List Movement) (ps : List InvestmentPrice) :
    ∀ (L : List (Nat × Nat)) (f : Nat → Option ℚ),
      List.Sublist ((buildDevs ms ps L f).map fun dev => (dev.investment, dev.date)) L
  | [], f => by simp [buildDevs_nil]
  | (i, d) :: rest, f => by
    cases h : resolvePrice ms ps i d (f i) with
    | none =>
      rw [buildDevs_cons_none ms ps i d rest f h]
      exact List.Sublist.cons (i, d) (buildDevs_pairs_sublist ms ps rest f)
    | some p =>
      rw [buildDevs_cons_some ms ps i d rest f p h]
      simpa using List.Sublist.cons₂ (i, d) (buildDevs_pairs_sublist ms ps rest
        (fun j => if j = i then some p else f j))

lemma quantity_of_mem_buildDevs (ms : List Movement) (ps : List InvestmentPrice) :
    ∀ (L : List (Nat × Nat)) (f : Nat → Option ℚ) (dev : Development),
      dev ∈ buildDevs ms ps L f →
        dev.quantity = heldQuantity ms dev.investment dev.date ∧
        dev.value = dev.quantity * dev.price
  | [], f, dev => by simp [buildDevs_nil]
  | (i, d) :: rest, f, dev => by
    cases h : resolvePrice ms ps i d (f i) with
    | none =>
      rw [buildDevs_cons_none ms ps i d rest f h]
      exact quantity_of_mem_buildDevs ms ps rest f dev
    | some p =>
      rw [buildDevs_cons_some ms ps i d rest f p h]
      intro hmem
      rcases List.mem_cons.mp hmem with hd | ht
      · subst hd; exact ⟨rfl, rfl⟩
      · exact quantity_of_mem_buildDevs ms ps rest _ dev ht

lemma price_of_mem_buildDevs (ms : List Movement) (ps : List InvestmentPrice) :
    ∀ (L : List (Nat × Nat)) (f : Nat → Option ℚ) (dev : Development),
      dev ∈ buildDevs ms ps L f → ∀ p : ℚ,
        eagerPrice ms ps dev.investment dev.date = some p → dev.price = p
  | [], f, dev => by simp [buildDevs_nil]
  | (i, d) :: rest, f, dev => by
    cases h : resolvePrice ms ps i d (f i) with
    | none =>
      rw [buildDevs_cons_none ms ps i d rest f h]
      exact price_of_mem_buildDevs ms ps rest f dev
    | some p0 =>
      rw [buildDevs_cons_some ms ps i d rest f p0 h]
      intro hmem p hp
      rcases List.mem_cons.mp hmem with hd | ht
      · subst hd
        rw [resolvePrice_eq_eager] at h
        simp only at hp
        rw [hp] at h
        exact (Option.some_inj.mp h).symm
      · exact price_of_mem_buildDevs ms ps rest _ dev ht p hp

lemma exists_mem_buildDevs_of_eager (ms : List Movement) (ps : List InvestmentPrice) :
    ∀ (L : List (Nat × Nat)) (i d : Nat) (p : ℚ), (i, d) ∈ L →
      eagerPrice ms ps i d = some p → ∀ f : Nat → Option ℚ,
        ∃ dev ∈ buildDevs ms ps L f, dev.investment = i ∧ dev.date = d ∧ dev.price = p
  | [], i, d, p => by simp
  | (i0, d0) :: rest, i, d, p => by
    intro hmem hp f
    rcases List.mem_cons.mp hmem with hd | ht
    · injection hd with h1 h2
      subst h1
      subst h2
      have h : resolvePrice ms ps i d (f i) = some p := by
        rw [resolvePrice_eq_eager, hp]
      rw [buildDevs_cons_some ms ps i d rest f p h]
      exact ⟨⟨i, d, p, heldQuantity ms i d, heldQuantity ms i d * p⟩,
        List.mem_cons_self _ _, rfl, rfl, rfl⟩
    · cases h : resolvePrice ms ps i0 d0 (f i0) with
      | none =>
        rw [buildDevs_cons_none ms ps i0 d0 rest f h]
        exact exists_mem_buildDevs_of_eager ms ps rest i d p ht hp f
      | some p0 =>
        rw [buildDevs_cons_some ms ps i0 d0 rest f p0 h]
        obtain ⟨dev, hdev, hprops⟩ :=
          exists_mem_buildDevs_of_eager ms ps rest i d p ht hp
            (fun j => if j = i0 then some p0 else f j)
        exact ⟨dev, List.mem_cons_of_mem _ hdev, hprops⟩

lemma rel_of_pairwise_split {α : Type} {R : α → α → Prop} {l1 l2 l3 : List α} {a b : α}
    (hp : List.Pairwise R (l1 ++ a :: (l2 ++ b :: l3))) : R a b := by
  have hsub : List.Sublist [a, b] (l1 ++ a :: (l2 ++ b :: l3)) := by
    refine List.Sublist.trans ?_ (List.sublist_append_right l1 _)
    refine List.Sublist.cons₂ a ?_
    refine List.Sublist.trans ?_ (List.sublist_append_right l2 _)
    exact List.Sublist.cons₂ b (List.nil_sublist l3)
  have hp2 := hp.sublist hsub
  exact (List.pairwise_cons.mp hp2).1 b (List.mem_singleton.mpr rfl)

lemma pairLt_of_pairLe_ne {a b : Nat × Nat} (h1 : pairLe a b) (h2 : a ≠ b) : pairLt a b := by
  rcases a with ⟨a1, a2⟩
  rcases b with ⟨b1, b2⟩
  simp only [pairLe, pairLt, Prod.mk.injEq, ne_eq] at h1 h2 ⊢
  omega

lemma candidatePairs_sorted (ms : List Movement) (ps : List InvestmentPrice) :
    List.Pairwise pairLt (candidatePairs ms ps) := by
  have hs : List.Sorted pairLe (candidatePairs ms ps) :=
    List.sorted_insertionSort pairLe _
  have hn : (candidatePairs ms ps).Nodup :=
    ((List.perm_insertionSort pairLe _).nodup_iff).mpr (List.nodup_dedup _)
  exact (hs.and hn).imp fun hab => pairLt_of_pairLe_ne hab.1 hab.2

lemma developments_pairs_sorted (ms : List Movement) (ps : List InvestmentPrice) :
    List.Pairwise pairLt ((developments ms ps).map fun dev => (dev.investment, dev.date)) :=
  List.Pairwise.sublist (buildDevs_pairs_sublist ms ps _ _) (candidatePairs_sorted ms ps)

lemma mem_candidatePairs (ms : List Movement) (ps : List InvestmentPrice) (i d : Nat) :
    (i, d) ∈ candidatePairs ms ps ↔
      (∃ m ∈ ms, m.investment = i ∧ m.date = d) ∨
      (∃ q ∈ ps, q.investment = i ∧ q.date = d) := by
  unfold candidatePairs
  rw [List.mem_insertionSort, List.mem_dedup, List.mem_append]
  simp [List.mem_map, Prod.ext_iff, eq_comm]

lemma quotePrice_eq_some_of_mem_uniq (ps : List InvestmentPrice) (i d : Nat) (p : ℚ)
    (hex : ∃ q ∈ ps, q.investment = i ∧ q.date = d)
    (huniq : ∀ q ∈ ps, q.investment = i → q.date = d → q.price = p) :
    quotePrice ps i d = some p := by
  unfold quotePrice
  obtain ⟨q, hq, hqi, hqd⟩ := hex
  have hne : (ps.filter fun r => r.investment = i ∧ r.date = d).map InvestmentPrice.price ≠ [] :=
    List.ne_nil_of_mem
      (List.mem_map_of_mem _ (List.mem_filter.mpr ⟨hq, by simp [hqi, hqd]⟩))
  rw [List.getLast?_eq_getLast_of_ne_nil hne]
  have hmem := List.getLast_mem hne
  obtain ⟨r, hr, hrp⟩ := List.mem_map.mp hmem
  have hr2 := List.mem_filter.mp hr
  have hri : r.investment = i ∧ r.date = d := by simpa using hr2.2
  rw [← hrp, huniq r hr2.1 hri.1 hri.2]

lemma quotePrice_isSome_of_mem (ps : List InvestmentPrice) (q : InvestmentPrice) (hq : q ∈ ps) :
    ∃ p, quotePrice ps q.investment q.date = some p := by
  unfold quotePrice
  have hne : (ps.filter fun r => r.investment = q.investment ∧ r.date = q.date).map
      InvestmentPrice.price ≠ [] :=
    List.ne_nil_of_mem (List.mem_map_of_mem _ (List.mem_filter.mpr ⟨hq, by simp⟩))
  exact ⟨_, List.getLast?_eq_getLast_of_ne_nil hne⟩

lemma transactionPrice_isSome_of_nonzero (ms : List Movement) (i d : Nat) (m : Movement)
    (hm : m ∈ ms) (hi : m.investment = i) (hd : m.date = d) (hq : m.quantity ≠ 0) :
    ∃ p, transactionPrice ms i d = some p := by
  have hterm : |m.amount / m.quantity| ∈ impliedPriceTerms ms i d := by
    unfold impliedPriceTerms movementsOn
    refine List.mem_map_of_mem _ (List.mem_filter.mpr ⟨List.mem_filter.mpr ⟨hm, ?_⟩, ?_⟩)
    · simp [hi, hd]
    · simpa using hq
  have hne := List.ne_nil_of_mem hterm
  unfold transactionPrice
  cases hts : impliedPriceTerms ms i d with
  | nil => exact absurd hts hne
  | cons t rest => exact ⟨_, rfl⟩

lemma eagerPrice_of_quote (ms : List Movement) (ps : List InvestmentPrice) (i d : Nat) (p : ℚ)
    (h : quotePrice ps i d = some p) : eagerPrice ms ps i d = some p := by
  unfold eagerPrice
  rw [h]

lemma eagerPrice_of_no_quote (ms : List Movement) (ps : List InvestmentPrice) (i d : Nat)
    (h : quotePrice ps i d = none) : eagerPrice ms ps i d = transactionPrice ms i d := by
  unfold eagerPrice
  rw [h]

lemma eagerPrice_isSome (ms : List Movement) (ps : List InvestmentPrice) (i d : Nat)
    (h : (∃ p, quotePrice ps i d = some p) ∨ ∃ p, transactionPrice ms i d = some p) :
    ∃ p, eagerPrice ms ps i d = some p := by
  unfold eagerPrice
  cases hq : quotePrice ps i d with
  | some p => exact ⟨p, rfl⟩
  | none =>
    rcases h with ⟨p, hp⟩ | ⟨p, hp⟩
    · rw [hq] at hp; exact absurd hp (by simp)
    · exact ⟨p, hp⟩

lemma buildDevs_carry (ms : List Movement) (ps : List InvestmentPrice) :
    ∀ (L : List (Nat × Nat)) (f : Nat → Option ℚ) (pre : List Development) (dev : Development)
      (post : List Development),
      buildDevs ms ps L f = pre ++ dev :: post →
      eagerPrice ms ps dev.investment dev.date = none →
      (∃ pre1 devj mid, pre = pre1 ++ devj :: mid ∧
        devj.investment = dev.investment ∧ devj.price = dev.price ∧
        ∀ x ∈ mid, x.investment ≠ dev.investment) ∨
      (f dev.investment = some dev.price ∧ ∀ x ∈ pre, x.investment ≠ dev.investment)
  | [], f, pre, dev, post => by
    rw [buildDevs_nil]
    intro h
    exact absurd h.symm (List.append_ne_nil_of_right_ne_nil pre (List.cons_ne_nil dev post))
  | (i, d) :: rest, f, pre, dev, post => by
    intro hsplit heager
    cases hres : resolvePrice ms ps i d (f i) with
    | none =>
      rw [buildDevs_cons_none ms ps i d rest f hres] at hsplit
      exact buildDevs_carry ms ps rest f pre dev post hsplit heager
    | some p =>
      rw [buildDevs_cons_some ms ps i d rest f p hres] at hsplit
      cases pre with
      | nil =>
        simp only [List.nil_append, List.cons.injEq] at hsplit
        obtain ⟨hdev, htail⟩ := hsplit
        subst hdev
        right
        have hfi : f i = some p := by
          rw [resolvePrice_eq_eager] at hres
          simp only at heager
          rw [heager] at hres
          exact hres
        exact ⟨hfi, by simp⟩
      | cons x pre1 =>
        simp only [List.cons_append, List.cons.injEq] at hsplit
        obtain ⟨hx, htail⟩ := hsplit
        subst hx
        rcases buildDevs_carry ms ps rest (fun j => if j = i then some p else f j)
            pre1 dev post htail heager with
          ⟨pre2, devj, mid, hpre1, hinv, hprice, hmid⟩ | ⟨hf, hpre1⟩
        · left
          exact ⟨⟨i, d, p, heldQuantity ms i d, heldQuantity ms i d * p⟩ :: pre2, devj, mid,
            by simp [hpre1], hinv, hprice, hmid⟩
        · by_cases hii : dev.investment = i
          · left
            refine ⟨[], ⟨i, d, p, heldQuantity ms i d, heldQuantity ms i d * p⟩, pre1,
              by simp, hii.symm, ?_, hpre1⟩
            rw [hii, if_pos rfl] at hf
            exact Option.some_inj.mp hf
          · right
            rw [if_neg hii] at hf
            refine ⟨hf, ?_⟩
            intro x hx
            rcases List.mem_cons.mp hx with hx0 | hx1
            · rw [hx0]
              exact fun hc => hii hc.symm
            · exact hpre1 x hx1

/-! Claim theorems for the valuation engine. -/

/-- C1: if an InvestmentPrice row exists for `(i, d)` (unique for that key, as
the store's upsert semantics guarantees), then `developments` emits a record
for `(i, d)` whose price equals exactly the stored price, taking priority over
any same-day trade-implied price and over any carried-forward earlier
price. -/
theorem stored_quote_has_priority (ms : List Movement) (ps : List InvestmentPrice)
    (i d : Nat) (p : ℚ)
    (hex : ∃ q ∈ ps, q.investment = i ∧ q.date = d)
    (huniq : ∀ q ∈ ps, q.investment = i → q.date = d → q.price = p) :
    (∃ dev ∈ developments ms ps, dev.investment = i ∧ dev.date = d ∧ dev.price = p) ∧
    ∀ dev ∈ developments ms ps, dev.investment = i → dev.date = d → dev.price = p := by
  have hqp := quotePrice_eq_some_of_mem_uniq ps i d p hex huniq
  have heager := eagerPrice_of_quote ms ps i d p hqp
  constructor
  · have hmem : (i, d) ∈ candidatePairs ms ps :=
      (mem_candidatePairs ms ps i d).mpr (Or.inr hex)
    exact exists_mem_buildDevs_of_eager ms ps _ i d p hmem heager _
  · intro dev hdev hi hd
    exact price_of_mem_buildDevs ms ps _ _ dev hdev p (by rw [hi, hd]; exact heager)

/-- C1 witness: a day with a trade implying price 10 but a stored quote of 42
emits price 42. -/
theorem stored_quote_has_priority_witness :
    (∃ dev ∈ developments [⟨1, 1, 1, 1, -10⟩] [⟨1, 1, 42⟩],
      dev.investment = 1 ∧ dev.date = 1 ∧ dev.price = 42) ∧
    ∀ dev ∈ developments [⟨1, 1, 1, 1, -10⟩] [⟨1, 1, 42⟩],
      dev.investment = 1 → dev.date = 1 → dev.price = 42 :=
  stored_quote_has_priority [⟨1, 1, 1, 1, -10⟩] [⟨1, 1, 42⟩] 1 1 42
    (by decide) (by decide)

/-- C2: every emitted Development's quantity equals the sum of Buy quantities
minus the sum of Sell quantities over the investment's movements with date at
most the record's date, and a Payout movement (action 3) never changes the
cumulative quantity. -/
theorem development_quantity_buys_minus_sells (ms : List Movement)
    (ps : List InvestmentPrice) :
    (∀ dev ∈ developments ms ps,
      dev.quantity =
        ((ms.filter fun m => m.investment = dev.investment ∧ m.action = 1 ∧
            m.date ≤ dev.date).map Movement.quantity).sum -
        ((ms.filter fun m => m.investment = dev.investment ∧ m.action = 2 ∧
            m.date ≤ dev.date).map Movement.quantity).sum) ∧
    ∀ pm : Movement, pm.action = 3 → ∀ i d : Nat,
      heldQuantity (pm :: ms) i d = heldQuantity ms i d := by
  constructor
  · intro dev hdev
    exact (quantity_of_mem_buildDevs ms ps _ _ dev hdev).1
  · intro pm hpm i d
    unfold heldQuantity buySum sellSum
    rw [List.filter_cons, List.filter_cons]
    simp [hpm]

/-- C2 witness: the same-day round trip nets quantity 0, and prepending a
Payout leaves the cumulative quantity unchanged. -/
theorem development_quantity_witness :
    (∀ dev ∈ developments [⟨1, 1, 1, 10, -100⟩, ⟨1, 1, 2, 10, 100⟩] [],
      dev.quantity =
        (([⟨1, 1, 1, 10, -100⟩, ⟨1, 1, 2, 10, 100⟩] : List Movement).filter
          (fun m => m.investment = dev.investment ∧ m.action = 1 ∧ m.date ≤ dev.date)
          |>.map Movement.quantity).sum -
        (([⟨1, 1, 1, 10, -100⟩, ⟨1, 1, 2, 10, 100⟩] : List Movement).filter
          (fun m => m.investment = dev.investment ∧ m.action = 2 ∧ m.date ≤ dev.date)
          |>.map Movement.quantity).sum) ∧
    ∀ pm : Movement, pm.action = 3 → ∀ i d : Nat,
      heldQuantity (pm :: [⟨1, 1, 1, 10, -100⟩, ⟨1, 1, 2, 10, 100⟩]) i d =
        heldQuantity [⟨1, 1, 1, 10, -100⟩, ⟨1, 1, 2, 10, 100⟩] i d :=
  development_quantity_buys_minus_sells [⟨1, 1, 1, 10, -100⟩, ⟨1, 1, 2, 10, 100⟩] []

/-- C3 counterexample: on a date carrying one Buy (implied price 10) and one
Payout (implied price 4) with no stored quote, the emitted price is 7 — the
mean over both movements — not the Buy/Sell-only mean 10 that the claim
prescribes: the source's `transaction_days` query has no action filter. -/
theorem payout_in_average_counterexample :
    quotePrice [] 1 1 = none ∧
    (∃ m ∈ ([⟨1, 1, 1, 1, -10⟩, ⟨1, 1, 3, 1, 4⟩] : List Movement),
      m.investment = 1 ∧ m.date = 1 ∧ m.action = 1) ∧
    specBuySellMeanPrice [⟨1, 1, 1, 1, -10⟩, ⟨1, 1, 3, 1, 4⟩] 1 1 = some 10 ∧
    developments [⟨1, 1, 1, 1, -10⟩, ⟨1, 1, 3, 1, 4⟩] [] = [⟨1, 1, 7, 1, 7⟩] ∧
    (7 : ℚ) ≠ 10 := by
  refine ⟨by decide, ⟨⟨1, 1, 1, 1, -10⟩, by decide, rfl, rfl, rfl⟩, ?_, ?_, by norm_num⟩
  · norm_num [specBuySellMeanPrice, movementsOn, avgOrNull]
  · norm_num [developments, candidatePairs, buildDevs, resolvePrice, quotePrice,
      transactionPrice, avgOrNull, impliedPriceTerms, movementsOn, heldQuantity, buySum,
      sellSum, List.insertionSort, List.orderedInsert, List.dedup, List.filter, List.map,
      List.sum]

/-- C3 (amended): for a date with no stored quote and at least one
nonzero-quantity movement, the emitted price is the simple (unweighted) mean
of `abs(amount / quantity)` over ALL of that day's movements with nonzero
quantity, regardless of action type (Payout movements included); zero-quantity
movements contribute no term. -/
theorem trade_implied_price_is_mean (ms : List Movement) (ps : List InvestmentPrice)
    (i d : Nat)
    (hq : quotePrice ps i d = none)
    (hterm : impliedPriceTerms ms i d ≠ []) :
    (∃ dev ∈ developments ms ps, dev.investment = i ∧ dev.date = d ∧
      dev.price = (impliedPriceTerms ms i d).sum / (impliedPriceTerms ms i d).length) ∧
    ∀ dev ∈ developments ms ps, dev.investment = i → dev.date = d →
      dev.price = (impliedPriceTerms ms i d).sum / (impliedPriceTerms ms i d).length := by
  have htp : transactionPrice ms i d =
      some ((impliedPriceTerms ms i d).sum / (impliedPriceTerms ms i d).length) := by
    cases hts : impliedPriceTerms ms i d with
    | nil => exact absurd hts hterm
    | cons t rest =>
      unfold transactionPrice
      rw [hts]
      rfl
  have heager : eagerPrice ms ps i d =
      some ((impliedPriceTerms ms i d).sum / (impliedPriceTerms ms i d).length) := by
    rw [eagerPrice_of_no_quote ms ps i d hq, htp]
  constructor
  · have hmem : (i, d) ∈ candidatePairs ms ps := by
      rw [mem_candidatePairs]
      left
      obtain ⟨t, ht⟩ := List.exists_mem_of_ne_nil _ hterm
      obtain ⟨m, hm, -⟩ := List.mem_map.mp ht
      have hm2 := List.mem_filter.mp hm
      have hm3 := List.mem_filter.mp hm2.1
      exact ⟨m, hm3.1, by simpa using hm3.2⟩
    exact exists_mem_buildDevs_of_eager ms ps _ i d _ hmem heager _
  · intro dev hdev hi hd
    exact price_of_mem_buildDevs ms ps _ _ dev hdev _ (by rw [hi, hd]; exact heager)

/-- C3 witness for the amended statement, at the Buy + Payout input of the
counterexample: the emitted price is the mean over both implied prices. -/
theorem trade_implied_price_witness :
    (∃ dev ∈ developments [⟨1, 1, 1, 1, -10⟩, ⟨1, 1, 3, 1, 4⟩] [],
      dev.investment = 1 ∧ dev.date = 1 ∧
      dev.price = (impliedPriceTerms [⟨1, 1, 1, 1, -10⟩, ⟨1, 1, 3, 1, 4⟩] 1 1).sum /
        (impliedPriceTerms [⟨1, 1, 1, 1, -10⟩, ⟨1, 1, 3, 1, 4⟩] 1 1).length) ∧
    ∀ dev ∈ developments [⟨1, 1, 1, 1, -10⟩, ⟨1, 1, 3, 1, 4⟩] [],
      dev.investment = 1 → dev.date = 1 →
      dev.price = (impliedPriceTerms [⟨1, 1, 1, 1, -10⟩, ⟨1, 1, 3, 1, 4⟩] 1 1).sum /
        (impliedPriceTerms [⟨1, 1, 1, 1, -10⟩, ⟨1, 1, 3, 1, 4⟩] 1 1).length :=
  trade_implied_price_is_mean [⟨1, 1, 1, 1, -10⟩, ⟨1, 1, 3, 1, 4⟩] [] 1 1
    (by decide) (by decide)

/-- C4: a record emitted with neither a stored quote nor a same-day
trade-implied price carries exactly the price of the investment's nearest
earlier emitted record (no other record of that investment lies between them,
and its date is strictly earlier); and a candidate date that resolves no price
and has no earlier emitted record for that investment is dropped from the
output. -/
theorem carried_forward_price (ms : List Movement) (ps : List InvestmentPrice) :
    (∀ (pre : List Development) (dev : Development) (post : List Development),
      developments ms ps = pre ++ dev :: post →
      quotePrice ps dev.investment dev.date = none →
      transactionPrice ms dev.investment dev.date = none →
      ∃ pre1 devj mid, pre = pre1 ++ devj :: mid ∧
        devj.investment = dev.investment ∧ devj.price = dev.price ∧
        devj.date < dev.date ∧
        ∀ x ∈ mid, x.investment ≠ dev.investment) ∧
    ∀ i d : Nat, (i, d) ∈ candidatePairs ms ps →
      quotePrice ps i d = none → transactionPrice ms i d = none →
      (∀ dev ∈ developments ms ps, dev.investment = i → ¬ dev.date < d) →
      ∀ dev ∈ developments ms ps, ¬(dev.investment = i ∧ dev.date = d) := by
  have hA : ∀ (pre : List Development) (dev : Development) (post : List Development),
      developments ms ps = pre ++ dev :: post →
      quotePrice ps dev.investment dev.date = none →
      transactionPrice ms dev.investment dev.date = none →
      ∃ pre1 devj mid, pre = pre1 ++ devj :: mid ∧
        devj.investment = dev.investment ∧ devj.price = dev.price ∧
        devj.date < dev.date ∧
        ∀ x ∈ mid, x.investment ≠ dev.investment := by
    intro pre dev post hsplit hq ht
    have heager : eagerPrice ms ps dev.investment dev.date = none := by
      rw [eagerPrice_of_no_quote ms ps _ _ hq, ht]
    rcases buildDevs_carry ms ps (candidatePairs ms ps) (fun _ => none) pre dev post
        hsplit heager with
      ⟨pre1, devj, mid, hpre, hinv, hprice, hmid⟩ | ⟨hf, -⟩
    · refine ⟨pre1, devj, mid, hpre, hinv, hprice, ?_, hmid⟩
      have hmap : (developments ms ps).map (fun x => (x.investment, x.date)) =
          (pre1.map fun x => (x.investment, x.date)) ++ (devj.investment, devj.date) ::
            ((mid.map fun x => (x.investment, x.date)) ++ (dev.investment, dev.date) ::
              (post.map fun x => (x.investment, x.date))) := by
        rw [hsplit, hpre]
        simp
      have hrel : pairLt (devj.investment, devj.date) (dev.investment, dev.date) :=
        rel_of_pairwise_split (hmap ▸ developments_pairs_sorted ms ps)
      simp only [pairLt] at hrel
      rcases hrel with h | h
      · rw [hinv] at h
        omega
      · exact h.2
    · exact absurd hf (by simp)
  refine ⟨hA, ?_⟩
  intro i d hcand hq ht hnone dev hdev hid
  obtain ⟨hinv, hdate⟩ := hid
  obtain ⟨pre, post, hsplit⟩ := List.append_of_mem hdev
  obtain ⟨pre1, devj, mid, hpre, hjinv, -, hjdate, -⟩ :=
    hA pre dev post hsplit (by rw [hinv, hdate]; exact hq) (by rw [hinv, hdate]; exact ht)
  have hjmem : devj ∈ developments ms ps := by
    rw [hsplit, hpre]
    simp
  rw [hinv] at hjinv
  rw [hdate] at hjdate
  exact hnone devj hjmem hjinv hjdate

/-- C4 witness: a Payout-only day with zero quantity (no quote, no implied
price) inherits the price 10 resolved on the preceding Buy day. -/
theorem carried_forward_price_witness :
    ∃ pre1 devj mid,
      ([⟨1, 1, 10, 1, 10⟩] : List Development) = pre1 ++ devj :: mid ∧
      devj.investment = (⟨1, 2, 10, 1, 10⟩ : Development).investment ∧
      devj.price = (⟨1, 2, 10, 1, 10⟩ : Development).price ∧
      devj.date < (⟨1, 2, 10, 1, 10⟩ : Development).date ∧
      ∀ x ∈ mid, x.investment ≠ (⟨1, 2, 10, 1, 10⟩ : Development).investment :=
  (carried_forward_price [⟨1, 1, 1, 1, -10⟩, ⟨1, 2, 3, 0, 5⟩] []).1
    [⟨1, 1, 10, 1, 10⟩] ⟨1, 2, 10, 1, 10⟩ []
    (by norm_num [developments, candidatePairs, buildDevs, resolvePrice, quotePrice,
      transactionPrice, avgOrNull, impliedPriceTerms, movementsOn, heldQuantity, buySum,
      sellSum, List.insertionSort, List.orderedInsert, List.dedup, List.filter, List.map,
      List.sum])
    (by decide) (by decide)

/-- C5 counterexample: a pair bearing a movement need not be emitted — a date
whose only movement has quantity zero yields no transaction price and, with no
quote and no earlier price, is dropped, so the output is empty although the
pair `(1, 1)` bears a movement. -/
theorem movement_pair_dropped_counterexample :
    (∃ m ∈ ([⟨1, 1, 1, 0, 5⟩] : List Movement), m.investment = 1 ∧ m.date = 1) ∧
    developments [⟨1, 1, 1, 0, 5⟩] [] = [] := by
  constructor
  · exact ⟨⟨1, 1, 1, 0, 5⟩, by decide, rfl, rfl⟩
  · decide

/-- C5 (amended): the output pairs are strictly increasing in `(investment,
date)` (hence at most one record per pair), every emitted pair bears a
movement or a stored quote on that date, every pair bearing a stored quote is
emitted, and every pair bearing a movement with nonzero quantity is emitted;
only a pair whose movements all have zero quantity and which has no quote can
be dropped (when no earlier price was resolved for that investment). -/
theorem output_shape (ms : List Movement) (ps : List InvestmentPrice) :
    List.Pairwise pairLt ((developments ms ps).map fun dev => (dev.investment, dev.date)) ∧
    (∀ dev ∈ developments ms ps,
      (∃ m ∈ ms, m.investment = dev.investment ∧ m.date = dev.date) ∨
      (∃ q ∈ ps, q.investment = dev.investment ∧ q.date = dev.date)) ∧
    (∀ q ∈ ps, ∃ dev ∈ developments ms ps,
      dev.investment = q.investment ∧ dev.date = q.date) ∧
    ∀ m ∈ ms, m.quantity ≠ 0 → ∃ dev ∈ developments ms ps,
      dev.investment = m.investment ∧ dev.date = m.date := by
  refine ⟨developments_pairs_sorted ms ps, ?_, ?_, ?_⟩
  · intro dev hdev
    have hpair : (dev.investment, dev.date) ∈ candidatePairs ms ps :=
      (buildDevs_pairs_sublist ms ps _ _).subset
        (List.mem_map_of_mem (fun x => (x.investment, x.date)) hdev)
    exact (mem_candidatePairs ms ps _ _).mp hpair
  · intro q hq
    obtain ⟨p, hp⟩ := quotePrice_isSome_of_mem ps q hq
    have hmem : (q.investment, q.date) ∈ candidatePairs ms ps :=
      (mem_candidatePairs ms ps _ _).mpr (Or.inr ⟨q, hq, rfl, rfl⟩)
    obtain ⟨dev, hdev, h1, h2, -⟩ := exists_mem_buildDevs_of_eager ms ps _ _ _ p hmem
      (eagerPrice_of_quote ms ps _ _ p hp) (fun _ => none)
    exact ⟨dev, hdev, h1, h2⟩
  · intro m hm hqz
    obtain ⟨p, hp⟩ := transactionPrice_isSome_of_nonzero ms m.investment m.date m hm rfl rfl hqz
    obtain ⟨p2, hp2⟩ := eagerPrice_isSome ms ps m.investment m.date (Or.inr ⟨p, hp⟩)
    have hmem : (m.investment, m.date) ∈ candidatePairs ms ps :=
      (mem_candidatePairs ms ps _ _).mpr (Or.inl ⟨m, hm, rfl, rfl⟩)
    obtain ⟨dev, hdev, h1, h2, -⟩ :=
      exists_mem_buildDevs_of_eager ms ps _ _ _ p2 hmem hp2 (fun _ => none)
    exact ⟨dev, hdev, h1, h2⟩

/-- C5 witness for the amended statement, on an input combining a trade day, a
quote-only day and a zero-quantity Payout day. -/
theorem output_shape_witness :
    List.Pairwise pairLt ((developments [⟨1, 1, 1, 2, -20⟩, ⟨1, 3, 3, 0, 5⟩] [⟨1, 2, 11⟩]).map
      fun dev => (dev.investment, dev.date)) ∧
    (∀ dev ∈ developments [⟨1, 1, 1, 2, -20⟩, ⟨1, 3, 3, 0, 5⟩] [⟨1, 2, 11⟩],
      (∃ m ∈ ([⟨1, 1, 1, 2, -20⟩, ⟨1, 3, 3, 0, 5⟩] : List Movement),
        m.investment = dev.investment ∧ m.date = dev.date) ∨
      (∃ q ∈ ([⟨1, 2, 11⟩] : List InvestmentPrice),
        q.investment = dev.investment ∧ q.date = dev.date)) ∧
    (∀ q ∈ ([⟨1, 2, 11⟩] : List InvestmentPrice),
      ∃ dev ∈ developments [⟨1, 1, 1, 2, -20⟩, ⟨1, 3, 3, 0, 5⟩] [⟨1, 2, 11⟩],
        dev.investment = q.investment ∧ dev.date = q.date) ∧
    ∀ m ∈ ([⟨1, 1, 1, 2, -20⟩, ⟨1, 3, 3, 0, 5⟩] : List Movement), m.quantity ≠ 0 →
      ∃ dev ∈ developments [⟨1, 1, 1, 2, -20⟩, ⟨1, 3, 3, 0, 5⟩] [⟨1, 2, 11⟩],
        dev.investment = m.investment ∧ dev.date = m.date :=
  output_shape [⟨1, 1, 1, 2, -20⟩, ⟨1, 3, 3, 0, 5⟩] [⟨1, 2, 11⟩]

lemma impliedPriceTerms_cons_zero (ms : List Movement) (mz : Movement)
    (hz : mz.quantity = 0) (i d : Nat) :
    impliedPriceTerms (mz :: ms) i d = impliedPriceTerms ms i d := by
  unfold impliedPriceTerms movementsOn
  rw [List.filter_filter, List.filter_filter, List.filter_cons]
  simp [hz]

lemma buildDevs_congr (ms ms2 : List Movement) (ps : List InvestmentPrice)
    (hres : ∀ i d last, resolvePrice ms ps i d last = resolvePrice ms2 ps i d last)
    (hqty : ∀ i d, heldQuantity ms i d = heldQuantity ms2 i d) :
    ∀ (L : List (Nat × Nat)) (f : Nat → Option ℚ),
      buildDevs ms ps L f = buildDevs ms2 ps L f
  | [], f => by rw [buildDevs_nil, buildDevs_nil]
  | (i, d) :: rest, f => by
    have h1 := hres i d (f i)
    cases h2 : resolvePrice ms2 ps i d (f i) with
    | none =>
      rw [buildDevs_cons_none ms ps i d rest f (h1.trans h2),
        buildDevs_cons_none ms2 ps i d rest f h2]
      exact buildDevs_congr ms ms2 ps hres hqty rest f
    | some p =>
      rw [buildDevs_cons_some ms ps i d rest f p (h1.trans h2),
        buildDevs_cons_some ms2 ps i d rest f p h2, hqty i d]
      exact congrArg _ (buildDevs_congr ms ms2 ps hres hqty rest _)

/-- C6: the valuation computation is total also on zero-quantity movements —
such a movement contributes no `abs(amount / quantity)` term: prepending it
never changes any day's trade-implied average, and (when its day is already a
candidate date of the ledger) it does not change the output of `developments`
at all. -/
theorem zero_quantity_excluded (ms : List Movement) (ps : List InvestmentPrice)
    (mz : Movement) (hz : mz.quantity = 0) :
    (∀ i d : Nat, transactionPrice (mz :: ms) i d = transactionPrice ms i d) ∧
    ((mz.investment, mz.date) ∈ ms.map (fun m => (m.investment, m.date)) →
      developments (mz :: ms) ps = developments ms ps) := by
  have htp : ∀ i d : Nat, transactionPrice (mz :: ms) i d = transactionPrice ms i d := by
    intro i d
    unfold transactionPrice
    rw [impliedPriceTerms_cons_zero ms mz hz]
  refine ⟨htp, ?_⟩
  intro hmem
  have hcand : candidatePairs (mz :: ms) ps = candidatePairs ms ps := by
    unfold candidatePairs
    rw [List.map_cons, List.cons_append, List.dedup_cons_of_mem]
    exact List.mem_append.mpr (Or.inl hmem)
  have hqty : ∀ i d : Nat, heldQuantity (mz :: ms) i d = heldQuantity ms i d := by
    intro i d
    unfold heldQuantity buySum sellSum
    rw [List.filter_cons, List.filter_cons]
    by_cases h1 : mz.investment = i ∧ mz.action = 1 ∧ mz.date ≤ d
    · by_cases h2 : mz.investment = i ∧ mz.action = 2 ∧ mz.date ≤ d
      · simp [h1, h2, hz]
      · simp [h1, h2, hz]
    · by_cases h2 : mz.investment = i ∧ mz.action = 2 ∧ mz.date ≤ d
      · simp [h1, h2, hz]
      · simp [h1, h2]
  have hres : ∀ (i d : Nat) (last : Option ℚ),
      resolvePrice (mz :: ms) ps i d last = resolvePrice ms ps i d last := by
    intro i d last
    unfold resolvePrice
    rw [htp i d]
  unfold developments
  rw [hcand]
  exact buildDevs_congr (mz :: ms) ms ps hres hqty _ _

/-- C6 witness: prepending a zero-quantity Payout on an existing trade day
changes neither the day's trade-implied price nor the output series. -/
theorem zero_quantity_excluded_witness :
    transactionPrice [⟨1, 1, 3, 0, 7⟩, ⟨1, 1, 1, 2, -20⟩] 1 1 =
      transactionPrice [⟨1, 1, 1, 2, -20⟩] 1 1 ∧
    developments [⟨1, 1, 3, 0, 7⟩, ⟨1, 1, 1, 2, -20⟩] [] =
      developments [⟨1, 1, 1, 2, -20⟩] [] :=
  ⟨(zero_quantity_excluded [⟨1, 1, 1, 2, -20⟩] [] ⟨1, 1, 3, 0, 7⟩ (by decide)).1 1 1,
    (zero_quantity_excluded [⟨1, 1, 1, 2, -20⟩] [] ⟨1, 1, 3, 0, 7⟩ (by decide)).2 (by decide)⟩

/-! Claim theorems for the currency converter and the quote orchestrator. -/

/-- C7: converting any amount between identical currency codes returns the
amount unchanged and issues no external rate request, for every rate oracle
and every date argument (historical or latest). -/
theorem convert_identity (fetch : ConvQuery → Option ℚ) (amount : ℚ) (c : String)
    (d : Option Nat) : convert fetch amount c c d = (some amount, []) := by
  unfold convert
  rw [if_pos rfl]

lemma fetch_result_store_indep (env : FetchEnv) (inv : Investment)
    (s s2 : List PriceRow) :
    (fetch_quotes_for_investment env s inv).1 = (fetch_quotes_for_investment env s2 inv).1 := by
  unfold fetch_quotes_for_investment
  repeat' split <;> try rfl

lemma runFetchLoop_results (env : FetchEnv) :
    ∀ (invs : List Investment) (store : List PriceRow),
      (runFetchLoop env store invs).1 =
        invs.map fun inv => (fetch_quotes_for_investment env [] inv).1
  | [], store => rfl
  | inv :: rest, store => by
    unfold runFetchLoop
    rw [List.map_cons]
    simp only
    rw [runFetchLoop_results env rest _, fetch_result_store_indep env inv store []]

/-- C9: the orchestrator returns exactly one per-item result for each
processed (selected) investment, in order — expressed by the result list being
the map of the per-investment fetch over the selection — and an exception
raised by a provider during one investment's bulk fetch is caught and recorded
as that investment's own failure result instead of propagating. -/
theorem per_item_results (env : FetchEnv) (store : List PriceRow)
    (invs : List Investment) (ids : Option (List Nat)) :
    ((fetch_quotes env store invs ids).1 =
      (selectInvestments invs ids).map fun inv =>
        (fetch_quotes_for_investment env [] inv).1) ∧
    ∀ inv : Investment, inv.ticker_symbol ≠ "" → inv.quote_provider ≠ "" →
      ∀ pr : ProviderImpl, env.providers inv.quote_provider = some pr →
      ∀ gq : String → Except String (List QuoteData), pr.get_quotes = some gq →
      ∀ e : String, gq inv.ticker_symbol = Except.error e →
      (fetch_quotes_for_investment env store inv).1 = ⟨inv.id, false, some e⟩ := by
  constructor
  · exact runFetchLoop_results env (selectInvestments invs ids) store
  · intro inv h1 h2 pr hpr gq hgq e he
    unfold fetch_quotes_for_investment
    rw [if_neg h1, if_neg h2]
    simp only [hpr]
    simp only [hgq]
    rw [if_pos h1]
    simp only [he]

/-- C9 witness: a batch of one investment whose provider raises still yields a
complete result list, and the raised message is recorded in that investment's
result. -/
theorem per_item_results_witness :
    ((fetch_quotes raisingEnv [] [invProv1] none).1 =
      (selectInvestments [invProv1] none).map fun inv =>
        (fetch_quotes_for_investment raisingEnv [] inv).1) ∧
    (fetch_quotes_for_investment raisingEnv [] invProv1).1 = ⟨7, false, some "boom"⟩ :=
  ⟨(per_item_results raisingEnv [] [invProv1] none).1,
    (per_item_results raisingEnv [] [invProv1] none).2 invProv1 (by decide) (by decide)
      ⟨some fun _ => Except.error "boom"⟩ rfl (fun _ => Except.error "boom") rfl "boom" rfl⟩

/-- C10: under the registry built in `QuoteFetcherService.__init__`, every
investment configured with a nonempty ticker and provider id
`"openbb_yahoo"` gets a failure result from `fetch_quotes_for_investment` —
the bulk path calls `get_quotes`, which `OpenBBYahooProvider` does not define,
and the resulting attribute error is caught into the per-item result — for
every JustETF data oracle, rate oracle, base currency and price store. -/
theorem openbb_bulk_always_fails (justetfData : String → List QuoteData)
    (rates : ConvQuery → Option ℚ) (base : String) (store : List PriceRow)
    (inv : Investment) (hticker : inv.ticker_symbol ≠ "")
    (hprov : inv.quote_provider = "openbb_yahoo") :
    ((fetch_quotes_for_investment ⟨defaultProviders justetfData, rates, base⟩ store
      inv).1.success = false) ∧
    (fetch_quotes_for_investment ⟨defaultProviders justetfData, rates, base⟩ store
      inv).1.error ≠ none := by
  unfold fetch_quotes_for_investment
  rw [if_neg hticker, if_neg (by simp [hprov])]
  have hp : FetchEnv.providers ⟨defaultProviders justetfData, rates, base⟩
      inv.quote_provider = some ⟨none⟩ := by
    rw [hprov]
    rfl
  rw [hp]
  exact ⟨rfl, by simp⟩

/-- C10 witness: the concrete OpenBB-configured investment fails under the
default registry. -/
theorem openbb_bulk_always_fails_witness :
    ((fetch_quotes_for_investment
        ⟨defaultProviders fun _ => [], fun _ => none, "EUR"⟩ [] invOpenbb).1.success = false) ∧
    (fetch_quotes_for_investment
        ⟨defaultProviders fun _ => [], fun _ => none, "EUR"⟩ [] invOpenbb).1.error ≠ none :=
  openbb_bulk_always_fails (fun _ => []) (fun _ => none) "EUR" [] invOpenbb
    (by decide) (by decide)

end PortfolioDb
